import Mathlib

/-!
Verification of the carthage setup-task scheduler (src/carthage/setup_tasks.py)
and the podman stamp-staleness override (src/carthage/podman/base.py).

The embedding models one object's task list as processed by
`SetupTaskMixin.run_setup_tasks`.  Wall-clock time is a natural number; every
observation of the clock (a stamp's mtime set by `create_stamp`, or a call to
`time.time()`) returns the current value and advances it, modelling a strictly
increasing real-time clock.  The stamp store (the object's stamp directory) is
an association list from stamp name to stamp record.  Within a single run the
object state consulted by a task's `hash_func` is fixed, so a hash function is
represented by its result string; an `invalidator_func` is a Boolean function
of the `last_run` argument it receives; a `check_completed_func` by its result.
-/

namespace Carthage

/-- A persisted stamp record: mtime of the stamp file and its text contents. -/
structure Stamp where
  mtime : Nat
  text : String
deriving DecidableEq

/-- The per-object stamp directory (`SetupTaskMixin.create_stamp` /
`delete_stamp` / `check_stamp`). -/
abbrev StampStore := List (String × Stamp)

/-- Result of a `check_completed_func`: Python `True`, a falsy value, or a
timestamp. -/
inductive CheckResult where
  | ctrue
  | cfalse
  | ctime (t : Nat)
deriving DecidableEq

/-- Outcome of invoking a task body: normal return, `SkipSetupTask`, or any
other exception. -/
inductive BodyOutcome where
  | ok
  | skip
  | err
deriving DecidableEq

/-- One entry of an object's `setup_tasks` list (the scheduling-relevant data
of a `TaskWrapperBase`).  `hash_func` is the string the task's hash function
returns against the current object state; `invalidator_func` receives the
`last_run` keyword argument. -/
structure Task where
  stamp : String
  order : Int
  hash_func : String
  invalidator_func : Option (Nat → Bool)
  check_completed_func : Option CheckResult
  body : BodyOutcome

/-- Lookup in the stamp directory. -/
def storeGet : StampStore → String → Option Stamp
  | [], _ => none
  | p :: rest, name => if p.1 = name then some p.2 else storeGet rest name

/-- Embedding of `delete_stamp`: removing a missing stamp is a no-op. -/
def storeDel : StampStore → String → StampStore
  | [], _ => []
  | p :: rest, name => if p.1 = name then storeDel rest name else p :: storeDel rest name

/-- Embedding of `create_stamp`: overwrites any existing stamp of the same name. -/
def storeSet (s : StampStore) (name : String) (v : Stamp) : StampStore :=
  (name, v) :: storeDel s name

/-- Embedding of `SetupTaskMixin.check_stamp`: `(False, "")` when the stamp file does not
exist, otherwise the mtime and text of the stamp. -/
def base_check_stamp (store : StampStore) (name : String) : Option Nat × String :=
  match storeGet store name with
  | none => (none, "")
  | some st => (some st.mtime, st.text)

/-- Embedding of `TaskWrapperBase.should_run_task` for a given check_stamp result `check`,
dependency floor `dep` and current clock.  Returns
(should_run, new floor, new clock); the clock advances only when the
invalidator branch consults `time.time()`. -/
def shouldRunWith (t : Task) (check : Option Nat × String) (dep clock : Nat) :
    Bool × Nat × Nat :=
  match t.check_completed_func with
  | some .ctrue => (false, dep, clock)
  | some .cfalse => (true, dep, clock)
  | some (.ctime tm) =>
    if tm < dep then (true, dep, clock)
    else
      match t.invalidator_func with
      | some f => if f tm then (false, tm, clock) else (true, clock, clock + 1)
      | none => (false, tm, clock)
  | none =>
    match check.1 with
    | none => (true, dep, clock)
    | some lr =>
      if lr < dep then (true, dep, clock)
      else if t.hash_func ≠ check.2 then (true, dep, clock)
      else
        match t.invalidator_func with
        | some f => if f lr then (false, lr, clock) else (true, clock, clock + 1)
        | none => (false, lr, clock)

/-- Embedding of `should_run_task` against the object's own stamp directory. -/
def should_run_task (t : Task) (store : StampStore) (dep clock : Nat) :
    Bool × Nat × Nat :=
  shouldRunWith t (base_check_stamp store t.stamp) dep clock

/-- Observable outcome of `run_setup_tasks`: final stamp store, clock and
dependency floor, the tasks selected to run (`ran`), the task bodies actually
invoked (`bodies`), and whether an exception propagated to the caller. -/
structure RunResult where
  store : StampStore
  clock : Nat
  floor : Nat
  ran : List String
  bodies : List String
  failed : Bool
deriving DecidableEq

/-- The loop of `SetupTaskMixin.run_setup_tasks`, beginning at dependency
floor `floor`.  On success of a body without a completion override, the new
stamp's mtime is the then-current clock and the floor advances to the
`time.time()` observed just after; on any non-skip exception the stamp is
deleted (unless overridden) and the run aborts. -/
def runTasksFrom : List Task → StampStore → Nat → Nat → Bool → RunResult
  | [], store, clock, floor, _ => ⟨store, clock, floor, [], [], false⟩
  | t :: rest, store, clock, floor, dry =>
    match should_run_task t store floor clock with
    | (false, floor1, clock1) => runTasksFrom rest store clock1 floor1 dry
    | (true, floor1, clock1) =>
      if dry then
        let r := runTasksFrom rest store clock1 floor1 dry
        { r with ran := t.stamp :: r.ran }
      else
        match t.body with
        | .skip =>
          let r := runTasksFrom rest store clock1 floor1 dry
          { r with ran := t.stamp :: r.ran, bodies := t.stamp :: r.bodies }
        | .err =>
          { store := if t.check_completed_func = none then storeDel store t.stamp else store
            clock := clock1
            floor := floor1
            ran := [t.stamp]
            bodies := [t.stamp]
            failed := true }
        | .ok =>
          match t.check_completed_func with
          | none =>
            let r := runTasksFrom rest (storeSet store t.stamp ⟨clock1, t.hash_func⟩)
              (clock1 + 2) (clock1 + 1) dry
            { r with ran := t.stamp :: r.ran, bodies := t.stamp :: r.bodies }
          | some _ =>
            let r := runTasksFrom rest store (clock1 + 1) clock1 dry
            { r with ran := t.stamp :: r.ran, bodies := t.stamp :: r.bodies }

/-- Embedding of `run_setup_tasks`, which starts the dependency floor at 0.0. -/
def run_setup_tasks (tasks : List Task) (store : StampStore) (clock : Nat)
    (dry : Bool) : RunResult :=
  runTasksFrom tasks store clock 0 dry

/-- A stamp directory is valid for a clock value when every recorded mtime
lies in the past. -/
def StoreValid (store : StampStore) (clock : Nat) : Prop :=
  ∀ p ∈ store, (Prod.snd p).mtime < clock

instance (store : StampStore) (clock : Nat) : Decidable (StoreValid store clock) := by
  unfold StoreValid
  infer_instance

theorem storeGet_set_self (s : StampStore) (n : String) (v : Stamp) :
    storeGet (storeSet s n v) n = some v := by
  simp [storeSet, storeGet]

theorem storeGet_del_ne (s : StampStore) (n m : String) (h : m ≠ n) :
    storeGet (storeDel s n) m = storeGet s m := by
  induction s with
  | nil => rfl
  | cons p rest ih =>
    by_cases hp : p.1 = n
    · simp [storeDel, storeGet, hp, Ne.symm h, ih]
    · by_cases hm : p.1 = m <;> simp [storeDel, storeGet, hp, hm, h, ih]

theorem storeGet_set_ne (s : StampStore) (n m : String) (v : Stamp) (h : m ≠ n) :
    storeGet (storeSet s n v) m = storeGet s m := by
  simp [storeSet, storeGet, Ne.symm h, storeGet_del_ne s n m h]

theorem mem_storeDel (s : StampStore) (n : String) (p : String × Stamp)
    (h : p ∈ storeDel s n) : p ∈ s := by
  induction s with
  | nil => simp [storeDel] at h
  | cons q rest ih =>
    by_cases hq : q.1 = n
    · simp only [storeDel, if_pos hq] at h
      exact List.mem_cons_of_mem q (ih h)
    · simp only [storeDel, if_neg hq, List.mem_cons] at h
      rcases h with h | h
      · exact h ▸ List.mem_cons_self q rest
      · exact List.mem_cons_of_mem q (ih h)

theorem StoreValid_del (s : StampStore) (n : String) (c : Nat)
    (h : StoreValid s c) : StoreValid (storeDel s n) c :=
  fun p hp => h p (mem_storeDel s n p hp)

theorem StoreValid_set (s : StampStore) (n : String) (v : Stamp) (c : Nat)
    (h : StoreValid s c) (hv : v.mtime < c) : StoreValid (storeSet s n v) c := by
  intro p hp
  rcases List.mem_cons.mp hp with h1 | h1
  · rw [h1]; exact hv
  · exact StoreValid_del s n c h p h1

theorem StoreValid_mono (s : StampStore) (c c' : Nat) (hle : c ≤ c')
    (h : StoreValid s c) : StoreValid s c' :=
  fun p hp => lt_of_lt_of_le (h p hp) hle

theorem storeGet_valid (s : StampStore) (n : String) (st : Stamp) (c : Nat)
    (h : StoreValid s c) (hg : storeGet s n = some st) : st.mtime < c := by
  induction s with
  | nil => simp [storeGet] at hg
  | cons p rest ih =>
    by_cases hp : p.1 = n
    · simp only [storeGet, if_pos hp, Option.some.injEq] at hg
      exact hg ▸ h p (List.mem_cons_self p rest)
    · simp only [storeGet, if_neg hp] at hg
      exact ih (fun q hq => h q (List.mem_cons_of_mem p hq)) hg

/-- Embedding of `PodmanContainer.check_stamp` (src/carthage/podman/base.py): the inherited
result is discarded when the cached `_find_result` creation time is truthy and
the stamp's mtime (Python `False` comparing as 0) predates it. -/
def podman_check_stamp (find_result : Option Nat) (store : StampStore)
    (name : String) : Option Nat × String :=
  let base := base_check_stamp store name
  match find_result with
  | some creation =>
    if creation ≠ 0 ∧ base.1.getD 0 < creation then (none, "") else base
  | none => base

/-- Embedding of `should_run_task` evaluated on a `PodmanContainer`, whose `check_stamp`
override consults the container's creation time. -/
def podman_should_run (t : Task) (find_result : Option Nat) (store : StampStore)
    (dep clock : Nat) : Bool × Nat × Nat :=
  shouldRunWith t (podman_check_stamp find_result store t.stamp) dep clock

/-- C6: a task without a completion override whose stamp is absent is always
selected to run, with the dependency floor and clock unchanged — whatever its
hash function and invalidator are. -/
theorem never_run_task_runs (t : Task) (store : StampStore) (dep clock : Nat)
    (hov : t.check_completed_func = none)
    (hst : storeGet store t.stamp = none) :
    should_run_task t store dep clock = (true, dep, clock) := by
  simp [should_run_task, shouldRunWith, base_check_stamp, hov, hst]

/-- Witness for `never_run_task_runs` at a concrete task and empty store. -/
theorem never_run_task_runs_witness :
    should_run_task ⟨"w6", 0, "h", some (fun _ => false), none, BodyOutcome.ok⟩ [] 3 7
      = (true, 3, 7) :=
  never_run_task_runs ⟨"w6", 0, "h", some (fun _ => false), none, BodyOutcome.ok⟩ [] 3 7
    rfl rfl

/-- C5: for a task with a completion override, `should_run_task` is
independent of the hash function; an override returning exactly True means
"do not run, floor unchanged"; a falsy override result means the task has
never run; and a timestamp result is used as the task's last-run time in the
remaining staleness checks (dependency floor, then invalidator — no hash
comparison). -/
theorem override_exempts_hash (t : Task) (r : CheckResult) (store : StampStore)
    (dep clock : Nat) (h : t.check_completed_func = some r) :
    (∀ h1 h2 : String,
      should_run_task { t with hash_func := h1 } store dep clock
        = should_run_task { t with hash_func := h2 } store dep clock) ∧
    (r = CheckResult.ctrue →
      should_run_task t store dep clock = (false, dep, clock)) ∧
    (r = CheckResult.cfalse →
      should_run_task t store dep clock = (true, dep, clock)) ∧
    (∀ tm, r = CheckResult.ctime tm →
      should_run_task t store dep clock =
        (if tm < dep then (true, dep, clock)
         else
           match t.invalidator_func with
           | some f => if f tm then (false, tm, clock) else (true, clock, clock + 1)
           | none => (false, tm, clock))) := by
  refine ⟨fun h1 h2 => ?_, fun hr => ?_, fun hr => ?_, fun tm hr => ?_⟩
  · cases r <;> simp [should_run_task, shouldRunWith, h]
  · subst hr; simp [should_run_task, shouldRunWith, h]
  · subst hr; simp [should_run_task, shouldRunWith, h]
  · subst hr; simp [should_run_task, shouldRunWith, h]

/-- Witness for `override_exempts_hash`: a concrete override task reporting a
timestamp, whose invalidator passes, does not run and sets the floor to that
timestamp. -/
theorem override_exempts_hash_witness :
    should_run_task ⟨"w5", 0, "x", some (fun _ => true), some (CheckResult.ctime 9), BodyOutcome.ok⟩
        [] 4 20 = (false, 9, 20) := by
  have h := override_exempts_hash
    ⟨"w5", 0, "x", some (fun _ => true), some (CheckResult.ctime 9), BodyOutcome.ok⟩
    (CheckResult.ctime 9) [] 4 20 rfl
  rw [h.2.2.2 9 rfl]
  norm_num

/-- C8: on a podman container whose discovered creation time is later than a
task's stamp, `check_stamp` reports the stamp as absent, and a task without a
completion override is treated as never run: it is selected to run with the
floor unchanged, regardless of its stored hash or invalidator. -/
theorem stale_stamp_reruns_after_recreate (t : Task) (creation : Nat)
    (store : StampStore) (st : Stamp) (dep clock : Nat)
    (hc : 0 < creation)
    (hov : t.check_completed_func = none)
    (hst : storeGet store t.stamp = some st)
    (hm : st.mtime < creation) :
    podman_check_stamp (some creation) store t.stamp = (none, "") ∧
    podman_should_run t (some creation) store dep clock = (true, dep, clock) := by
  have hch : podman_check_stamp (some creation) store t.stamp = (none, "") := by
    have hne : creation ≠ 0 := Nat.pos_iff_ne_zero.mp hc
    simp [podman_check_stamp, base_check_stamp, hst, hne, hm]
  exact ⟨hch, by simp [podman_should_run, hch, shouldRunWith, hov]⟩

/-- Witness for `stale_stamp_reruns_after_recreate`: stamp written at time 5,
container recreated at time 8. -/
theorem stale_stamp_reruns_after_recreate_witness :
    podman_should_run ⟨"w8", 0, "h", none, none, BodyOutcome.ok⟩ (some 8)
      [("w8", ⟨5, "h"⟩)] 0 11 = (true, 0, 11) :=
  (stale_stamp_reruns_after_recreate ⟨"w8", 0, "h", none, none, BodyOutcome.ok⟩ 8
    [("w8", ⟨5, "h"⟩)] ⟨5, "h"⟩ 0 11 (by decide) rfl rfl (by decide)).2

/-- C2: when a selected task's body raises anything other than
`SkipSetupTask`, the run aborts: the exception propagates to the caller, no
later-ordered task is reached, and the task's stamp is deleted — unless the
task has a completion override, in which case the stamp store is untouched. -/
theorem task_failure_aborts (t : Task) (rest : List Task) (store : StampStore)
    (clock floor : Nat)
    (hrun : (should_run_task t store floor clock).1 = true)
    (herr : t.body = BodyOutcome.err) :
    (runTasksFrom (t :: rest) store clock floor false).failed = true ∧
    (runTasksFrom (t :: rest) store clock floor false).bodies = [t.stamp] ∧
    (runTasksFrom (t :: rest) store clock floor false).ran = [t.stamp] ∧
    (runTasksFrom (t :: rest) store clock floor false).store
      = if t.check_completed_func = none then storeDel store t.stamp
        else store := by
  rcases hsr : should_run_task t store floor clock with ⟨b, f1, c1⟩
  rw [hsr] at hrun
  simp only at hrun
  subst hrun
  simp [runTasksFrom, hsr, herr]

/-- Witness for `task_failure_aborts`: a failing task with a hash-stale stamp
aborts before a second task and deletes its own stamp. -/
theorem task_failure_aborts_witness :
    (runTasksFrom [⟨"w2", 0, "", none, none, BodyOutcome.err⟩,
        ⟨"w2b", 100, "", none, none, BodyOutcome.ok⟩]
        [("w2", ⟨3, "x"⟩)] 10 0 false).failed = true ∧
    (runTasksFrom [⟨"w2", 0, "", none, none, BodyOutcome.err⟩,
        ⟨"w2b", 100, "", none, none, BodyOutcome.ok⟩]
        [("w2", ⟨3, "x"⟩)] 10 0 false).bodies = ["w2"] ∧
    (runTasksFrom [⟨"w2", 0, "", none, none, BodyOutcome.err⟩,
        ⟨"w2b", 100, "", none, none, BodyOutcome.ok⟩]
        [("w2", ⟨3, "x"⟩)] 10 0 false).ran = ["w2"] ∧
    (runTasksFrom [⟨"w2", 0, "", none, none, BodyOutcome.err⟩,
        ⟨"w2b", 100, "", none, none, BodyOutcome.ok⟩]
        [("w2", ⟨3, "x"⟩)] 10 0 false).store
      = if (⟨"w2", 0, "", none, none, BodyOutcome.err⟩ : Task).check_completed_func = none
        then storeDel [("w2", ⟨3, "x"⟩)] "w2"
        else [("w2", ⟨3, "x"⟩)] :=
  task_failure_aborts ⟨"w2", 0, "", none, none, BodyOutcome.err⟩
    [⟨"w2b", 100, "", none, none, BodyOutcome.ok⟩]
    [("w2", ⟨3, "x"⟩)] 10 0 (by decide) rfl

theorem shouldRunWith_clock_ge (t : Task) (check : Option Nat × String)
    (dep clock : Nat) : clock ≤ (shouldRunWith t check dep clock).2.2 := by
  unfold shouldRunWith
  repeat' split
  all_goals simp

theorem shouldRunWith_run_or_floor (t : Task) (check : Option Nat × String)
    (dep clock : Nat) :
    (shouldRunWith t check dep clock).1 = true ∨
      dep ≤ (shouldRunWith t check dep clock).2.1 := by
  unfold shouldRunWith
  repeat' split
  all_goals simp
  all_goals omega

/-- Any task list processed from a floor at least `flr0`, with a clock at
least `flr0` and all bodies succeeding, invokes the body of each of its
override-free members whose stamp predates `flr0`. -/
theorem stale_task_runs (u : Task) (st : Stamp) (flr0 : Nat)
    (huov : u.check_completed_func = none) (hstale : st.mtime < flr0) :
    ∀ (rest : List Task) (store : StampStore) (clock floor : Nat),
    (rest.map (fun t => t.stamp)).Nodup →
    (∀ w ∈ rest, w.body = BodyOutcome.ok) →
    flr0 ≤ floor → flr0 ≤ clock →
    u ∈ rest → storeGet store u.stamp = some st →
    u.stamp ∈ (runTasksFrom rest store clock floor false).bodies := by
  intro rest
  induction rest with
  | nil => intro store clock floor _ _ _ _ hu _; cases hu
  | cons v rest2 ih =>
    intro store clock floor hnd hok hf hc hu hust
    rw [List.map_cons] at hnd
    rcases List.mem_cons.mp hu with hv | hu2
    · subst hv
      have hsr : should_run_task u store floor clock = (true, floor, clock) := by
        unfold should_run_task shouldRunWith
        simp only [huov, base_check_stamp, hust]
        have hlt : st.mtime < floor := lt_of_lt_of_le hstale hf
        simp [hlt]
      rw [runTasksFrom, hsr]
      simp only [Bool.false_eq_true, if_false]
      rw [hok u (List.mem_cons_self u rest2)]
      simp only [huov]
      simp
    · have hvne : u.stamp ≠ v.stamp := by
        intro hcontra
        have hmem : u.stamp ∈ rest2.map (fun t => t.stamp) :=
          List.mem_map_of_mem (fun t => t.stamp) hu2
        rw [hcontra] at hmem
        exact (List.nodup_cons.mp hnd).1 hmem
      have hnd2 : (rest2.map (fun t => t.stamp)).Nodup := (List.nodup_cons.mp hnd).2
      have hok2 : ∀ w ∈ rest2, w.body = BodyOutcome.ok :=
        fun w hw => hok w (List.mem_cons_of_mem v hw)
      rcases hsr : should_run_task v store floor clock with ⟨b, f1, c1⟩
      have hc1 : clock ≤ c1 := by
        have hge := shouldRunWith_clock_ge v (base_check_stamp store v.stamp) floor clock
        rw [should_run_task] at hsr
        rw [hsr] at hge
        exact hge
      cases b
      · -- v not selected: the floor advances to v's last-run time, ≥ floor
        have hf1 : floor ≤ f1 := by
          have hor := shouldRunWith_run_or_floor v (base_check_stamp store v.stamp) floor clock
          rw [should_run_task] at hsr
          rw [hsr] at hor
          rcases hor with hor | hor
          · simp at hor
          · exact hor
        rw [runTasksFrom, hsr]
        exact ih store c1 f1 hnd2 hok2 (le_trans hf hf1) (le_trans hc hc1) hu2 hust
      · -- v selected and its body succeeds
        rw [runTasksFrom, hsr]
        simp only [Bool.false_eq_true, if_false]
        rw [hok v (List.mem_cons_self v rest2)]
        rcases hcc : v.check_completed_func with _ | r
        · simp only
          have hust2 : storeGet (storeSet store v.stamp ⟨c1, v.hash_func⟩) u.stamp
              = some st := by
            rw [storeGet_set_ne store v.stamp u.stamp _ hvne]
            exact hust
          exact List.mem_cons_of_mem v.stamp
            (ih (storeSet store v.stamp ⟨c1, v.hash_func⟩) (c1 + 2) (c1 + 1)
              hnd2 hok2 (by omega) (by omega) hu2 hust2)
        · simp only
          exact List.mem_cons_of_mem v.stamp
            (ih store (c1 + 1) c1 hnd2 hok2 (by omega) (by omega) hu2 hust)

/-- C3: when none of the earlier `should_run_task` steps decided (the stamp
exists, is not older than the dependency floor, and the hash matches) and the
invalidator returns falsy, the task is selected to run and the floor becomes
the current time; consequently, in a run whose bodies succeed, every
later-ordered override-free task whose recorded last-run time is older than
that moment also reruns. -/
theorem invalidator_propagates (t : Task) (rest : List Task) (store : StampStore)
    (dep clock : Nat) (f : Nat → Bool) (st : Stamp)
    (hov : t.check_completed_func = none)
    (hstamp : storeGet store t.stamp = some st)
    (hnotold : ¬ st.mtime < dep)
    (hhash : t.hash_func = st.text)
    (hinv : t.invalidator_func = some f)
    (hf : f st.mtime = false)
    (hbody : t.body = BodyOutcome.ok)
    (hok : ∀ w ∈ rest, w.body = BodyOutcome.ok)
    (hnodup : ((t :: rest).map (fun x => x.stamp)).Nodup) :
    should_run_task t store dep clock = (true, clock, clock + 1) ∧
    ∀ u ∈ rest, u.check_completed_func = none →
      ∀ stu : Stamp, storeGet store u.stamp = some stu → stu.mtime < clock →
        u.stamp ∈ (runTasksFrom (t :: rest) store clock dep false).bodies := by
  have hsr : should_run_task t store dep clock = (true, clock, clock + 1) := by
    unfold should_run_task shouldRunWith
    simp [hov, base_check_stamp, hstamp, hnotold, hhash, hinv, hf]
  refine ⟨hsr, fun u hu huov stu hustu hstale => ?_⟩
  rw [List.map_cons] at hnodup
  have htne : u.stamp ≠ t.stamp := by
    intro hcontra
    have hmem : u.stamp ∈ rest.map (fun x => x.stamp) :=
      List.mem_map_of_mem (fun x => x.stamp) hu
    rw [hcontra] at hmem
    exact (List.nodup_cons.mp hnodup).1 hmem
  rw [runTasksFrom, hsr]
  simp only [Bool.false_eq_true, if_false]
  rw [hbody]
  simp only [hov]
  have hust2 : storeGet (storeSet store t.stamp ⟨clock + 1, t.hash_func⟩) u.stamp
      = some stu := by
    rw [storeGet_set_ne store t.stamp u.stamp _ htne]
    exact hustu
  exact List.mem_cons_of_mem t.stamp
    (stale_task_runs u stu clock huov hstale rest
      (storeSet store t.stamp ⟨clock + 1, t.hash_func⟩) (clock + 1 + 2) (clock + 1 + 1)
      (List.nodup_cons.mp hnodup).2 hok (by omega) (by omega) hu hust2)

/-- Witness for `invalidator_propagates`: task `wa3` is invalidated at clock
10; task `wb3`, last run at time 6 < 10, reruns in the same pass. -/
theorem invalidator_propagates_witness :
    should_run_task ⟨"wa3", 0, "", some (fun _ => false), none, BodyOutcome.ok⟩
        [("wa3", ⟨5, ""⟩), ("wb3", ⟨6, ""⟩)] 0 10 = (true, 10, 11) ∧
    "wb3" ∈ (runTasksFrom
        [⟨"wa3", 0, "", some (fun _ => false), none, BodyOutcome.ok⟩,
         ⟨"wb3", 100, "", none, none, BodyOutcome.ok⟩]
        [("wa3", ⟨5, ""⟩), ("wb3", ⟨6, ""⟩)] 10 0 false).bodies := by
  have h := invalidator_propagates
    ⟨"wa3", 0, "", some (fun _ => false), none, BodyOutcome.ok⟩
    [⟨"wb3", 100, "", none, none, BodyOutcome.ok⟩]
    [("wa3", ⟨5, ""⟩), ("wb3", ⟨6, ""⟩)] 0 10 (fun _ => false) ⟨5, ""⟩
    rfl rfl (by decide) rfl rfl rfl rfl (by intro w hw; simp at hw; rw [hw])
    (by decide)
  exact ⟨h.1, h.2 ⟨"wb3", 100, "", none, none, BodyOutcome.ok⟩
    (List.mem_cons_self _ _) rfl ⟨6, ""⟩ rfl (by decide)⟩

/-- A run only creates or deletes stamps named after its own tasks. -/
theorem runTasksFrom_frame :
    ∀ (ts : List Task) (store : StampStore) (clock floor : Nat) (dry : Bool)
      (name : String), name ∉ ts.map (fun t => t.stamp) →
    storeGet (runTasksFrom ts store clock floor dry).store name = storeGet store name := by
  intro ts
  induction ts with
  | nil => intro store clock floor dry name _; rfl
  | cons t rest ih =>
    intro store clock floor dry name hn
    rw [List.map_cons] at hn
    have hne : name ≠ t.stamp := fun h => hn (by rw [h]; exact List.mem_cons_self _ _)
    have hn2 : name ∉ rest.map (fun t => t.stamp) := fun h => hn (List.mem_cons_of_mem _ h)
    rcases hsr : should_run_task t store floor clock with ⟨b, f1, c1⟩
    cases b
    · rw [runTasksFrom, hsr]
      exact ih store c1 f1 dry name hn2
    · rw [runTasksFrom, hsr]
      cases dry
      · simp only [Bool.false_eq_true, if_false]
        cases hbody : t.body
        · rcases hcc : t.check_completed_func with _ | r
          · simp only
            rw [ih _ _ _ _ _ hn2, storeGet_set_ne store t.stamp name _ hne]
          · simp only
            exact ih _ _ _ _ _ hn2
        · simp only
          exact ih _ _ _ _ _ hn2
        · simp only
          split
          · exact storeGet_del_ne store t.stamp name hne
          · rfl
      · simp only [if_true]
        exact ih _ _ _ _ _ hn2

/-- The invalidator check as consulted by `should_run_task`: absent
invalidators pass. -/
def invPass (t : Task) (lr : Nat) : Bool :=
  match t.invalidator_func with
  | some f => f lr
  | none => true

/-- A store is "settled" for a task list from floor `g` when every task would
be skipped by `should_run_task`, each override-free task handing its stamp
time to its successors as the new floor; the result is the final floor. -/
def chainFloor : List Task → StampStore → Nat → Option Nat
  | [], _, g => some g
  | t :: rest, store, g =>
    match t.check_completed_func with
    | some CheckResult.ctrue => chainFloor rest store g
    | some _ => none
    | none =>
      match storeGet store t.stamp with
      | none => none
      | some st =>
        if st.mtime < g then none
        else if t.hash_func ≠ st.text then none
        else if invPass t st.mtime then chainFloor rest store st.mtime
        else none

/-- A settled task list runs nothing: the store is untouched, no body is
invoked, and the run cannot fail — in normal and dry-run mode alike. -/
theorem chain_noRun :
    ∀ (ts : List Task) (store : StampStore) (g gf : Nat),
    chainFloor ts store g = some gf →
    ∀ (clock : Nat) (dry : Bool),
    runTasksFrom ts store clock g dry = ⟨store, clock, gf, [], [], false⟩ := by
  intro ts
  induction ts with
  | nil =>
    intro store g gf hch clock dry
    simp only [chainFloor, Option.some.injEq] at hch
    rw [runTasksFrom, hch]
  | cons t rest ih =>
    intro store g gf hch clock dry
    rw [chainFloor] at hch
    rcases hcc : t.check_completed_func with _ | r
    · simp only [hcc] at hch
      rcases hg : storeGet store t.stamp with _ | st
      · simp [hg] at hch
      · simp only [hg] at hch
        by_cases hlt : st.mtime < g
        · simp [hlt] at hch
        · by_cases hh : t.hash_func ≠ st.text
          · simp [hlt, hh] at hch
          · by_cases hip : invPass t st.mtime
            · simp only [if_neg hlt, if_neg hh, hip, if_true] at hch
              have hsr : should_run_task t store g clock = (false, st.mtime, clock) := by
                unfold should_run_task shouldRunWith
                simp only [hcc, base_check_stamp, hg, if_neg hlt, if_neg hh]
                unfold invPass at hip
                rcases hinv : t.invalidator_func with _ | f
                · simp
                · simp only [hinv] at hip
                  simp [hip]
              rw [runTasksFrom, hsr]
              exact ih store st.mtime gf hch clock dry
            · simp [hlt, hh, hip] at hch
    · rcases r with _ | _ | tm
      · simp only [hcc] at hch
        have hsr : should_run_task t store g clock = (false, g, clock) := by
          unfold should_run_task shouldRunWith
          simp [hcc]
        rw [runTasksFrom, hsr]
        exact ih store g gf hch clock dry
      · simp [hcc] at hch
      · simp [hcc] at hch

/-- Under always-passing invalidators and overrides that report complete,
`should_run_task` either skips an override task with the floor untouched,
selects an override-free task leaving floor and clock untouched, or skips an
override-free task whose stamp satisfies every check, moving the floor to the
stamp's mtime. -/
theorem should_run_char (t : Task) (store : StampStore) (floor clock : Nat)
    (hinv : ∀ f : Nat → Bool, t.invalidator_func = some f → ∀ n, f n = true)
    (hov : t.check_completed_func = none ∨
           t.check_completed_func = some CheckResult.ctrue) :
    (t.check_completed_func = some CheckResult.ctrue ∧
       should_run_task t store floor clock = (false, floor, clock)) ∨
    (t.check_completed_func = none ∧
       should_run_task t store floor clock = (true, floor, clock)) ∨
    (t.check_completed_func = none ∧
       ∃ st : Stamp, storeGet store t.stamp = some st ∧ ¬ st.mtime < floor ∧
         t.hash_func = st.text ∧
         should_run_task t store floor clock = (false, st.mtime, clock)) := by
  rcases hov with hov | hov
  · rcases hg : storeGet store t.stamp with _ | st
    · refine Or.inr (Or.inl ⟨hov, ?_⟩)
      unfold should_run_task shouldRunWith
      simp [hov, base_check_stamp, hg]
    · by_cases hlt : st.mtime < floor
      · refine Or.inr (Or.inl ⟨hov, ?_⟩)
        unfold should_run_task shouldRunWith
        simp [hov, base_check_stamp, hg, hlt]
      · by_cases hh : t.hash_func = st.text
        · refine Or.inr (Or.inr ⟨hov, st, rfl, hlt, hh, ?_⟩)
          unfold should_run_task shouldRunWith
          simp only [hov, base_check_stamp, hg, if_neg hlt]
          rcases hiv : t.invalidator_func with _ | f
          · simp [hh]
          · simp [hh, hinv f hiv st.mtime]
        · refine Or.inr (Or.inl ⟨hov, ?_⟩)
          unfold should_run_task shouldRunWith
          simp [hov, base_check_stamp, hg, hlt, hh]
  · refine Or.inl ⟨hov, ?_⟩
    unfold should_run_task shouldRunWith
    simp [hov]

/-- When every body succeeds, every invalidator passes, every completion
override reports complete, and stamp names are distinct, a run from a valid
store cannot fail, keeps the store valid, and leaves it settled for every
floor at most the starting one. -/
theorem run_establishes_chain :
    ∀ (ts : List Task) (store : StampStore) (clock floor : Nat),
    (ts.map (fun t => t.stamp)).Nodup →
    (∀ t ∈ ts, t.body = BodyOutcome.ok) →
    (∀ t ∈ ts, ∀ f : Nat → Bool, t.invalidator_func = some f → ∀ n, f n = true) →
    (∀ t ∈ ts, t.check_completed_func = none ∨
               t.check_completed_func = some CheckResult.ctrue) →
    floor ≤ clock → StoreValid store clock →
    (runTasksFrom ts store clock floor false).failed = false ∧
    StoreValid (runTasksFrom ts store clock floor false).store
      (runTasksFrom ts store clock floor false).clock ∧
    ∀ g ≤ floor,
      (chainFloor ts (runTasksFrom ts store clock floor false).store g).isSome := by
  intro ts
  induction ts with
  | nil =>
    intro store clock floor _ _ _ _ _ hsv
    exact ⟨rfl, hsv, fun g _ => by simp [runTasksFrom, chainFloor]⟩
  | cons t rest ih =>
    intro store clock floor hnd hok hinv hov hfc hsv
    rw [List.map_cons] at hnd
    have hts : t.stamp ∉ rest.map (fun x => x.stamp) := (List.nodup_cons.mp hnd).1
    have hnd2 : (rest.map (fun x => x.stamp)).Nodup := (List.nodup_cons.mp hnd).2
    have hok2 : ∀ w ∈ rest, w.body = BodyOutcome.ok :=
      fun w hw => hok w (List.mem_cons_of_mem t hw)
    have hinv2 : ∀ w ∈ rest, ∀ f : Nat → Bool, w.invalidator_func = some f →
        ∀ n, f n = true :=
      fun w hw => hinv w (List.mem_cons_of_mem t hw)
    have hov2 : ∀ w ∈ rest, w.check_completed_func = none ∨
        w.check_completed_func = some CheckResult.ctrue :=
      fun w hw => hov w (List.mem_cons_of_mem t hw)
    rcases should_run_char t store floor clock (hinv t (List.mem_cons_self t rest))
        (hov t (List.mem_cons_self t rest)) with
      ⟨hcc, hsr⟩ | ⟨hcc, hsr⟩ | ⟨hcc, st, hg, hlt, hh, hsr⟩
    · -- the completion override reports complete: skipped, floor unchanged
      rw [runTasksFrom, hsr]
      obtain ⟨h1, h2, h3⟩ := ih store clock floor hnd2 hok2 hinv2 hov2 hfc hsv
      refine ⟨h1, h2, fun g hgf => ?_⟩
      rw [chainFloor]
      simp only [hcc]
      exact h3 g hgf
    · -- t is selected; its body succeeds and a fresh stamp is recorded
      rw [runTasksFrom, hsr]
      simp only [Bool.false_eq_true, if_false]
      rw [hok t (List.mem_cons_self t rest)]
      simp only [hcc]
      have hsv2 : StoreValid (storeSet store t.stamp ⟨clock, t.hash_func⟩) (clock + 2) :=
        StoreValid_set store t.stamp ⟨clock, t.hash_func⟩ (clock + 2)
          (StoreValid_mono store clock (clock + 2) (by omega) hsv)
          (by show clock < clock + 2; omega)
      obtain ⟨h1, h2, h3⟩ := ih (storeSet store t.stamp ⟨clock, t.hash_func⟩)
        (clock + 2) (clock + 1) hnd2 hok2 hinv2 hov2 (by omega) hsv2
      refine ⟨h1, h2, fun g hgf => ?_⟩
      have hgets : storeGet (runTasksFrom rest (storeSet store t.stamp ⟨clock, t.hash_func⟩)
          (clock + 2) (clock + 1) false).store t.stamp = some ⟨clock, t.hash_func⟩ := by
        rw [runTasksFrom_frame rest _ _ _ _ _ hts]
        exact storeGet_set_self store t.stamp ⟨clock, t.hash_func⟩
      rw [chainFloor]
      simp only [hcc, hgets]
      have hnlt : ¬ clock < g := by omega
      rw [if_neg hnlt]
      simp only [ne_eq, not_true_eq_false, if_false]
      have hip : invPass t clock = true := by
        unfold invPass
        rcases hiv : t.invalidator_func with _ | f
        · rfl
        · exact hinv t (List.mem_cons_self t rest) f hiv clock
      rw [hip]
      simp only [if_true]
      exact h3 clock (by omega)
    · -- t is skipped; the floor moves to its stamp time
      rw [runTasksFrom, hsr]
      have hmc : st.mtime < clock := storeGet_valid store t.stamp st clock hsv hg
      obtain ⟨h1, h2, h3⟩ := ih store clock st.mtime hnd2 hok2 hinv2 hov2 (by omega) hsv
      refine ⟨h1, h2, fun g hgf => ?_⟩
      have hgets : storeGet (runTasksFrom rest store clock st.mtime false).store t.stamp
          = some st := by
        rw [runTasksFrom_frame rest _ _ _ _ _ hts]
        exact hg
      rw [chainFloor]
      simp only [hcc, hgets]
      have hnlt : ¬ st.mtime < g := by omega
      rw [if_neg hnlt]
      have hh2 : ¬ t.hash_func ≠ st.text := by simp [hh]
      rw [if_neg hh2]
      have hip : invPass t st.mtime = true := by
        unfold invPass
        rcases hiv : t.invalidator_func with _ | f
        · rfl
        · exact hinv t (List.mem_cons_self t rest) f hiv st.mtime
      rw [hip]
      simp only [if_true]
      exact h3 st.mtime (by omega)

/-- C1 (amended): after a successful `run_setup_tasks` in which every body
returned normally, provided every completion override reports complete and
every invalidator returns truthy on the post-run state, an immediately
following second run — at any later clock — selects nothing, executes zero
task bodies, neither creates nor deletes any stamp, and cannot fail. -/
theorem second_run_is_noop (ts : List Task) (store : StampStore) (clock : Nat)
    (hnd : (ts.map (fun t => t.stamp)).Nodup)
    (hok : ∀ t ∈ ts, t.body = BodyOutcome.ok)
    (hinv : ∀ t ∈ ts, ∀ f : Nat → Bool, t.invalidator_func = some f → ∀ n, f n = true)
    (hov : ∀ t ∈ ts, t.check_completed_func = none ∨
           t.check_completed_func = some CheckResult.ctrue)
    (hsv : StoreValid store clock) :
    (run_setup_tasks ts store clock false).failed = false ∧
    ∀ clock2 : Nat,
      (run_setup_tasks ts (run_setup_tasks ts store clock false).store clock2
          false).bodies = [] ∧
      (run_setup_tasks ts (run_setup_tasks ts store clock false).store clock2
          false).ran = [] ∧
      (run_setup_tasks ts (run_setup_tasks ts store clock false).store clock2
          false).store = (run_setup_tasks ts store clock false).store ∧
      (run_setup_tasks ts (run_setup_tasks ts store clock false).store clock2
          false).failed = false := by
  obtain ⟨h1, _, h3⟩ := run_establishes_chain ts store clock 0 hnd hok hinv hov
    (Nat.zero_le clock) hsv
  have hch := h3 0 (le_refl 0)
  rw [Option.isSome_iff_exists] at hch
  obtain ⟨gf, hgf⟩ := hch
  refine ⟨h1, fun clock2 => ?_⟩
  have hnoop := chain_noRun ts (runTasksFrom ts store clock 0 false).store 0 gf hgf
    clock2 false
  simp only [run_setup_tasks]
  rw [hnoop]
  exact ⟨rfl, rfl, rfl, rfl⟩

/-- Witness for `second_run_is_noop`: one never-run task executes on the
first run, and the second run is empty. -/
theorem second_run_is_noop_witness :
    (run_setup_tasks [⟨"w1", 0, "", none, none, BodyOutcome.ok⟩] [] 0 false).failed
        = false ∧
    (run_setup_tasks [⟨"w1", 0, "", none, none, BodyOutcome.ok⟩]
        (run_setup_tasks [⟨"w1", 0, "", none, none, BodyOutcome.ok⟩] [] 0 false).store
        5 false).bodies = [] := by
  have h := second_run_is_noop [⟨"w1", 0, "", none, none, BodyOutcome.ok⟩] [] 0
    (by decide) (by decide)
    (by intro t ht f hf n
        rw [List.mem_singleton] at ht
        subst ht
        exact Option.noConfusion hf)
    (by intro t ht
        rw [List.mem_singleton] at ht
        subst ht
        exact Or.inl rfl)
    (by decide)
  exact ⟨h.1, (h.2 5).1⟩

/-- C1 as literally stated fails: with all inputs unchanged after the first
successful run — here an invalidator that still returns falsy — the second
run executes the task body again. -/
theorem second_run_reruns_invalidated_task :
    (run_setup_tasks [⟨"c1", 0, "", some (fun _ => false), none, BodyOutcome.ok⟩]
        [("c1", ⟨5, ""⟩)] 10 false).failed = false ∧
    (run_setup_tasks [⟨"c1", 0, "", some (fun _ => false), none, BodyOutcome.ok⟩]
        (run_setup_tasks [⟨"c1", 0, "", some (fun _ => false), none, BodyOutcome.ok⟩]
          [("c1", ⟨5, ""⟩)] 10 false).store
        (run_setup_tasks [⟨"c1", 0, "", some (fun _ => false), none, BodyOutcome.ok⟩]
          [("c1", ⟨5, ""⟩)] 10 false).clock false).bodies = ["c1"] := by
  decide

theorem chainFloor_append :
    ∀ (xs ys : List Task) (store : StampStore) (g : Nat),
    chainFloor (xs ++ ys) store g =
      (chainFloor xs store g).bind (fun g2 => chainFloor ys store g2) := by
  intro xs
  induction xs with
  | nil => intro ys store g; simp [chainFloor]
  | cons t rest ih =>
    intro ys store g
    rw [List.cons_append, chainFloor, chainFloor]
    rcases hcc : t.check_completed_func with _ | r
    · simp only
      rcases hg : storeGet store t.stamp with _ | st
      · simp
      · simp only
        by_cases hlt : st.mtime < g
        · simp [hlt]
        · by_cases hh : t.hash_func ≠ st.text
          · simp [hlt, hh]
          · by_cases hip : invPass t st.mtime
            · simp [hlt, hh, hip, ih]
            · simp [hlt, hh, hip]
    · rcases r with _ | _ | tm
      · simp [ih]
      · simp
      · simp

/-- A settled prefix of a task list is skipped wholesale: the run continues
with the remaining tasks from the prefix's final floor. -/
theorem chain_prefix_skips :
    ∀ (xs : List Task) (ys : List Task) (store : StampStore) (g g2 : Nat),
    chainFloor xs store g = some g2 →
    ∀ (clock : Nat) (dry : Bool),
    runTasksFrom (xs ++ ys) store clock g dry = runTasksFrom ys store clock g2 dry := by
  intro xs
  induction xs with
  | nil =>
    intro ys store g g2 hch clock dry
    simp only [chainFloor, Option.some.injEq] at hch
    rw [List.nil_append, hch]
  | cons t rest ih =>
    intro ys store g g2 hch clock dry
    rw [chainFloor] at hch
    rcases hcc : t.check_completed_func with _ | r
    · simp only [hcc] at hch
      rcases hg : storeGet store t.stamp with _ | st
      · simp [hg] at hch
      · simp only [hg] at hch
        by_cases hlt : st.mtime < g
        · simp [hlt] at hch
        · by_cases hh : t.hash_func ≠ st.text
          · simp [hlt, hh] at hch
          · by_cases hip : invPass t st.mtime
            · simp only [if_neg hlt, if_neg hh, hip, if_true] at hch
              have hsr : should_run_task t store g clock = (false, st.mtime, clock) := by
                unfold should_run_task shouldRunWith
                simp only [hcc, base_check_stamp, hg, if_neg hlt, if_neg hh]
                unfold invPass at hip
                rcases hinv : t.invalidator_func with _ | f
                · simp
                · simp only [hinv] at hip
                  simp [hip]
              rw [List.cons_append, runTasksFrom, hsr]
              exact ih ys store st.mtime g2 hch clock dry
            · simp [hlt, hh, hip] at hch
    · rcases r with _ | _ | tm
      · simp only [hcc] at hch
        have hsr : should_run_task t store g clock = (false, g, clock) := by
          unfold should_run_task shouldRunWith
          simp [hcc]
        rw [List.cons_append, runTasksFrom, hsr]
        exact ih ys store g g2 hch clock dry
      · simp [hcc] at hch
      · simp [hcc] at hch

/-- C4 (amended): when between two successful runs only the hash output of
the LAST-ordered task changes (its stamp exists and every invalidator
passes), the second run reruns exactly that one task, stores the new hash
output as its stamp's validation text, and a third run executes nothing.
(When the changed task is not last, later-ordered tasks also rerun as
dependency-stale.) -/
theorem hash_change_reruns_exactly_last (pre : List Task) (tl : Task) (h2 : String)
    (store : StampStore) (clock : Nat) (ts2 : List Task) (r1 r2 : RunResult)
    (hnd : ((pre ++ [tl]).map (fun t => t.stamp)).Nodup)
    (hok : ∀ t ∈ pre ++ [tl], t.body = BodyOutcome.ok)
    (hinv : ∀ t ∈ pre ++ [tl], ∀ f : Nat → Bool, t.invalidator_func = some f →
      ∀ n, f n = true)
    (hov : ∀ t ∈ pre, t.check_completed_func = none ∨
           t.check_completed_func = some CheckResult.ctrue)
    (hovl : tl.check_completed_func = none)
    (hhne : h2 ≠ tl.hash_func)
    (hsv : StoreValid store clock)
    (hts2 : ts2 = pre ++ [{ tl with hash_func := h2 }])
    (hr1 : r1 = run_setup_tasks (pre ++ [tl]) store clock false)
    (hr2 : r2 = run_setup_tasks ts2 r1.store r1.clock false) :
    r1.failed = false ∧ r2.failed = false ∧ r2.bodies = [tl.stamp] ∧
    (∃ m : Nat, storeGet r2.store tl.stamp = some ⟨m, h2⟩) ∧
    ∀ clock3 : Nat,
      (run_setup_tasks ts2 r2.store clock3 false).bodies = [] ∧
      (run_setup_tasks ts2 r2.store clock3 false).store = r2.store := by
  subst hts2
  subst hr1
  subst hr2
  simp only [run_setup_tasks]
  have htlm : tl ∈ pre ++ [tl] := by simp
  have hovall : ∀ t ∈ pre ++ [tl], t.check_completed_func = none ∨
      t.check_completed_func = some CheckResult.ctrue := by
    intro t ht
    rcases List.mem_append.mp ht with h | h
    · exact hov t h
    · rw [List.mem_singleton] at h
      subst h
      exact Or.inl hovl
  obtain ⟨h1, hsv1, h3⟩ := run_establishes_chain (pre ++ [tl]) store clock 0 hnd hok
    hinv hovall (Nat.zero_le clock) hsv
  obtain ⟨gf, hgf⟩ := Option.isSome_iff_exists.mp (h3 0 (le_refl 0))
  rw [chainFloor_append] at hgf
  rcases hgp : chainFloor pre (runTasksFrom (pre ++ [tl]) store clock 0 false).store 0
    with _ | gp
  · rw [hgp] at hgf
    cases hgf
  rw [hgp] at hgf
  simp only [Option.some_bind] at hgf
  rw [chainFloor] at hgf
  simp only [hovl] at hgf
  rcases hst : storeGet (runTasksFrom (pre ++ [tl]) store clock 0 false).store tl.stamp
    with _ | st
  · simp [hst] at hgf
  simp only [hst] at hgf
  by_cases hlt : st.mtime < gp
  · simp [hlt] at hgf
  by_cases hhh : tl.hash_func ≠ st.text
  · simp [hlt, hhh] at hgf
  have htxt : tl.hash_func = st.text := not_ne_iff.mp hhh
  have hne2 : h2 ≠ st.text := htxt ▸ hhne
  -- the second run: the settled prefix is skipped, the last task reruns
  have hsr2 : should_run_task { tl with hash_func := h2 }
      (runTasksFrom (pre ++ [tl]) store clock 0 false).store gp
      (runTasksFrom (pre ++ [tl]) store clock 0 false).clock
      = (true, gp, (runTasksFrom (pre ++ [tl]) store clock 0 false).clock) := by
    unfold should_run_task shouldRunWith
    simp [hovl, base_check_stamp, hst, if_neg hlt, hne2]
  have hrun2 : runTasksFrom (pre ++ [{ tl with hash_func := h2 }])
      (runTasksFrom (pre ++ [tl]) store clock 0 false).store
      (runTasksFrom (pre ++ [tl]) store clock 0 false).clock 0 false
      = ⟨storeSet (runTasksFrom (pre ++ [tl]) store clock 0 false).store tl.stamp
           ⟨(runTasksFrom (pre ++ [tl]) store clock 0 false).clock, h2⟩,
         (runTasksFrom (pre ++ [tl]) store clock 0 false).clock + 2,
         (runTasksFrom (pre ++ [tl]) store clock 0 false).clock + 1,
         [tl.stamp], [tl.stamp], false⟩ := by
    rw [chain_prefix_skips pre [{ tl with hash_func := h2 }]
      (runTasksFrom (pre ++ [tl]) store clock 0 false).store 0 gp hgp
      (runTasksFrom (pre ++ [tl]) store clock 0 false).clock false]
    rw [runTasksFrom, hsr2]
    simp only [Bool.false_eq_true, if_false]
    rw [show ({ tl with hash_func := h2 } : Task).body = tl.body from rfl, hok tl htlm]
    simp only [hovl]
    rfl
  -- the third run: the second run's result is again settled
  have hnd2 : ((pre ++ [{ tl with hash_func := h2 }]).map
      (fun t : Task => t.stamp)).Nodup := by
    have hmap : (pre ++ [{ tl with hash_func := h2 }]).map (fun t : Task => t.stamp)
        = (pre ++ [tl]).map (fun t : Task => t.stamp) := by simp
    rw [hmap]
    exact hnd
  have hok2 : ∀ t ∈ pre ++ [{ tl with hash_func := h2 }], t.body = BodyOutcome.ok := by
    intro t ht
    rcases List.mem_append.mp ht with h | h
    · exact hok t (List.mem_append.mpr (Or.inl h))
    · rw [List.mem_singleton] at h
      subst h
      exact hok tl htlm
  have hinv2 : ∀ t ∈ pre ++ [{ tl with hash_func := h2 }], ∀ f : Nat → Bool,
      t.invalidator_func = some f → ∀ n, f n = true := by
    intro t ht
    rcases List.mem_append.mp ht with h | h
    · exact hinv t (List.mem_append.mpr (Or.inl h))
    · rw [List.mem_singleton] at h
      subst h
      exact hinv tl htlm
  have hov2 : ∀ t ∈ pre ++ [{ tl with hash_func := h2 }], t.check_completed_func = none ∨
      t.check_completed_func = some CheckResult.ctrue := by
    intro t ht
    rcases List.mem_append.mp ht with h | h
    · exact hov t h
    · rw [List.mem_singleton] at h
      subst h
      exact Or.inl hovl
  obtain ⟨h1b, _, h3b⟩ := run_establishes_chain (pre ++ [{ tl with hash_func := h2 }])
    (runTasksFrom (pre ++ [tl]) store clock 0 false).store
    (runTasksFrom (pre ++ [tl]) store clock 0 false).clock 0 hnd2 hok2 hinv2 hov2
    (Nat.zero_le _) hsv1
  obtain ⟨gf2, hgf2⟩ := Option.isSome_iff_exists.mp (h3b 0 (le_refl 0))
  refine ⟨h1, ?_, ?_, ?_, ?_⟩
  · rw [hrun2]
  · rw [hrun2]
  · rw [hrun2]
    exact ⟨(runTasksFrom (pre ++ [tl]) store clock 0 false).clock,
      storeGet_set_self (runTasksFrom (pre ++ [tl]) store clock 0 false).store tl.stamp
        ⟨(runTasksFrom (pre ++ [tl]) store clock 0 false).clock, h2⟩⟩
  · intro clock3
    rw [hrun2] at hgf2
    have hnoop := chain_noRun (pre ++ [{ tl with hash_func := h2 }]) _ 0 gf2 hgf2
      clock3 false
    rw [hrun2, hnoop]
    exact ⟨rfl, rfl⟩

/-- Witness for `hash_change_reruns_exactly_last`: two tasks, the second
(last-ordered) task's hash changes from "ha" to "hb"; the second run reruns
only that task. -/
theorem hash_change_reruns_exactly_last_witness :
    (run_setup_tasks ([⟨"w4a", 0, "", none, none, BodyOutcome.ok⟩]
        ++ [⟨"w4b", 100, "ha", none, none, BodyOutcome.ok⟩]) [] 0 false).failed
      = false ∧
    (run_setup_tasks ([⟨"w4a", 0, "", none, none, BodyOutcome.ok⟩]
        ++ [⟨"w4b", 100, "hb", none, none, BodyOutcome.ok⟩])
      (run_setup_tasks ([⟨"w4a", 0, "", none, none, BodyOutcome.ok⟩]
        ++ [⟨"w4b", 100, "ha", none, none, BodyOutcome.ok⟩]) [] 0 false).store
      (run_setup_tasks ([⟨"w4a", 0, "", none, none, BodyOutcome.ok⟩]
        ++ [⟨"w4b", 100, "ha", none, none, BodyOutcome.ok⟩]) [] 0 false).clock
      false).bodies = ["w4b"] := by
  have h := hash_change_reruns_exactly_last
    [⟨"w4a", 0, "", none, none, BodyOutcome.ok⟩]
    ⟨"w4b", 100, "ha", none, none, BodyOutcome.ok⟩ "hb" [] 0 _ _ _
    (by decide) (by decide)
    (by intro t ht f hf n
        simp at ht
        rcases ht with h | h <;> subst h <;> exact Option.noConfusion hf)
    (by intro t ht
        rw [List.mem_singleton] at ht
        subst ht
        exact Or.inl rfl)
    rfl (by decide) (by decide) rfl rfl rfl
  exact ⟨h.1, h.2.2.1⟩

/-- C4 as literally stated fails: changing only the FIRST task's hash output
between two successful runs makes the second run execute both tasks — the
rerun advances the dependency floor, so the later-ordered task is
dependency-stale. -/
theorem hash_change_reruns_more_than_one :
    (run_setup_tasks [⟨"c4a", 0, "h1", none, none, BodyOutcome.ok⟩,
        ⟨"c4b", 100, "", none, none, BodyOutcome.ok⟩] [] 0 false).failed = false ∧
    (run_setup_tasks [⟨"c4a", 0, "h2", none, none, BodyOutcome.ok⟩,
        ⟨"c4b", 100, "", none, none, BodyOutcome.ok⟩]
      (run_setup_tasks [⟨"c4a", 0, "h1", none, none, BodyOutcome.ok⟩,
        ⟨"c4b", 100, "", none, none, BodyOutcome.ok⟩] [] 0 false).store
      (run_setup_tasks [⟨"c4a", 0, "h1", none, none, BodyOutcome.ok⟩,
        ⟨"c4b", 100, "", none, none, BodyOutcome.ok⟩] [] 0 false).clock
      false).bodies = ["c4a", "c4b"] := by
  decide

/-- Stable insertion into an order-sorted task list: an element is placed
before the first member whose order is not smaller, so earlier-declared tasks
precede later ones of equal order. -/
def insertTask (t : Task) : List Task → List Task
  | [] => [t]
  | u :: rest => if u.order < t.order then u :: insertTask t rest else t :: u :: rest

/-- Embedding of `SetupTaskMixin.__init__`: `sorted(self._class_setup_tasks(), key=lambda
t: t.order)` — a stable sort of the class-collected tasks by `order`. -/
def initSetupTasks : List Task → List Task
  | [] => []
  | t :: rest => insertTask t (initSetupTasks rest)

/-- Embedding of `SetupTaskMixin.add_setup_task`: the new task is appended to
`setup_tasks` without re-sorting (the source carries an `xxx reorder` note
where the re-sort is missing). -/
def add_setup_task (tasks : List Task) (t : Task) : List Task := tasks ++ [t]

/-- C7 evaluated at the failing input: a class-collected task of order 100
followed by `add_setup_task` of a task of order 0 yields the execution
sequence of orders [100, 0] — not ascending — and a run invokes the bodies in
exactly that non-ascending sequence. -/
theorem add_setup_task_breaks_order :
    (add_setup_task (initSetupTasks [⟨"c7a", 100, "", none, none, BodyOutcome.ok⟩])
        ⟨"c7b", 0, "", none, none, BodyOutcome.ok⟩).map (fun t : Task => t.order)
      = [100, 0] ∧
    ¬ ((add_setup_task (initSetupTasks [⟨"c7a", 100, "", none, none, BodyOutcome.ok⟩])
        ⟨"c7b", 0, "", none, none, BodyOutcome.ok⟩).map
        (fun t : Task => t.order)).Pairwise (fun a b => a ≤ b) ∧
    (run_setup_tasks
        (add_setup_task (initSetupTasks [⟨"c7a", 100, "", none, none, BodyOutcome.ok⟩])
          ⟨"c7b", 0, "", none, none, BodyOutcome.ok⟩) [] 0 false).bodies
      = ["c7a", "c7b"] := by
  decide

/-- Modelled from the spec: the dependency-injection container of
carthage/dependency_injection is not under src/ (only its tests are).  Per
§4.1 a container has a parent, a provider registry and an optional claiming
owner; containers are distinct instances, identified here by `id`. -/
structure Injector where
  id : Nat
  parentId : Option Nat
  claimedBy : Option String
deriving DecidableEq

/-- Modelled from the spec: "claim returns self if unclaimed (and marks it
claimed), else returns a new child container" — the child carries a fresh
identity and points back to the claimed container. -/
def Injector.claim (i : Injector) (owner : String) (freshId : Nat) : Injector :=
  match i.claimedBy with
  | none => { i with claimedBy := some owner }
  | some _ => { id := freshId, parentId := some i.id, claimedBy := some owner }

/-- C9: claiming an unclaimed container returns that same container (same
identity and parent, now marked claimed); claiming an already-claimed
container returns a child with a fresh identity — never the same container
instance. -/
theorem claim_never_aliases (i : Injector) (owner : String) (freshId : Nat) :
    (i.claimedBy = none →
      (i.claim owner freshId).id = i.id ∧
      (i.claim owner freshId).parentId = i.parentId ∧
      (i.claim owner freshId).claimedBy = some owner) ∧
    (i.claimedBy ≠ none → freshId ≠ i.id →
      (i.claim owner freshId).id ≠ i.id ∧
      (i.claim owner freshId).parentId = some i.id ∧
      (i.claim owner freshId).claimedBy = some owner) := by
  constructor
  · intro h
    simp [Injector.claim, h]
  · intro h hf
    rcases hc : i.claimedBy with _ | o
    · exact absurd hc h
    · simp [Injector.claim, hc, hf]

/-- Witness for `claim_never_aliases`: an unclaimed container keeps identity
1; a claimed one yields a child with identity 2. -/
theorem claim_never_aliases_witness :
    ((⟨1, none, none⟩ : Injector).claim "o" 2).id = 1 ∧
    ((⟨1, none, some "p"⟩ : Injector).claim "o" 2).id ≠ 1 := by
  have h1 := (claim_never_aliases ⟨1, none, none⟩ "o" 2).1 rfl
  have h2 := (claim_never_aliases ⟨1, none, some "p"⟩ "o" 2).2 (by decide) (by decide)
  exact ⟨h1.1, h2.1⟩

theorem dry_run_frame :
    ∀ (ts : List Task) (store : StampStore) (clock floor : Nat),
    (runTasksFrom ts store clock floor true).store = store ∧
    (runTasksFrom ts store clock floor true).bodies = [] ∧
    (runTasksFrom ts store clock floor true).failed = false := by
  intro ts
  induction ts with
  | nil => intro store clock floor; exact ⟨rfl, rfl, rfl⟩
  | cons t rest ih =>
    intro store clock floor
    rcases hsr : should_run_task t store floor clock with ⟨b, f1, c1⟩
    cases b
    · rw [runTasksFrom, hsr]
      exact ih store c1 f1
    · rw [runTasksFrom, hsr]
      simp only [if_true]
      obtain ⟨ha, hb, hc⟩ := ih store c1 f1
      exact ⟨ha, hb, hc⟩

/-- C10 (amended): a dry run invokes no task body, leaves the stamp store
untouched and cannot fail; per task, `should_run_task` either rejects the
task, or selects it leaving the dependency floor unchanged, or — only when an
invalidator is present and returned falsy — selects it moving the floor to
the current time. -/
theorem dry_run_reads_only :
    (∀ (ts : List Task) (store : StampStore) (clock floor : Nat),
      (runTasksFrom ts store clock floor true).store = store ∧
      (runTasksFrom ts store clock floor true).bodies = [] ∧
      (runTasksFrom ts store clock floor true).failed = false) ∧
    (∀ (t : Task) (store : StampStore) (dep clock : Nat),
      (should_run_task t store dep clock).1 = false ∨
      (should_run_task t store dep clock).2.1 = dep ∨
      ((should_run_task t store dep clock).2.1 = clock ∧
       (should_run_task t store dep clock).2.2 = clock + 1 ∧
       t.invalidator_func ≠ none)) := by
  refine ⟨dry_run_frame, fun t store dep clock => ?_⟩
  unfold should_run_task shouldRunWith
  repeat' split
  all_goals simp_all

/-- C10 as literally stated fails: in a dry run, a task that merely would
have run because its invalidator returned falsy advances the dependency floor
from 0 to the current time 10. -/
theorem dry_run_advances_floor_on_invalidation :
    (run_setup_tasks [⟨"c10", 0, "", some (fun _ => false), none, BodyOutcome.ok⟩]
        [("c10", ⟨5, ""⟩)] 10 true).ran = ["c10"] ∧
    (run_setup_tasks [⟨"c10", 0, "", some (fun _ => false), none, BodyOutcome.ok⟩]
        [("c10", ⟨5, ""⟩)] 10 true).bodies = [] ∧
    (run_setup_tasks [⟨"c10", 0, "", some (fun _ => false), none, BodyOutcome.ok⟩]
        [("c10", ⟨5, ""⟩)] 10 true).floor = 10 := by
  decide

end Carthage
